import Mathlib

/-!
Shallow embedding of the statistical core of the mu-correlators repository
(bootstrap.py, fit.py, correlators/corrfit.py) and theorems checking the
natural language specification against that code.

Numbers are modelled by rationals (exact arithmetic).  External numerical
routines of numpy and scipy (the optimizer, the chi squared cdf, the pseudo
random generator) are modelled as explicit function parameters, and the
Python exceptions that the code can raise are modelled by explicit error
values in an Except type.
-/

/-- Python runtime errors arising in the top level bootstrap module.  The
constructor nameErrorNp models the exception NameError for the global name
np: bootstrap.py only imports random, so every occurrence of np (and of
the equally undefined name filenames) raises this error when evaluated. -/
inductive PyErr where
  | nameErrorNp
  deriving DecidableEq

/-- Python errors arising in correlators/corrfit.py.  The constructor
linAlgError models numpy.linalg.LinAlgError raised on a singular matrix;
the except branch of curve_fit_correlated prints the offending matrix
before re-raising, and that printed diagnostic is modelled by attaching
the matrix to the error value. -/
inductive NpError where
  | linAlgError (matrix : List (List ℚ))
  deriving DecidableEq

/-- From bootstrap.py, generate_sample: the local list named result that
the loop fills, one random.choice per iteration.  random.choice is
modelled by the oracle pick, reduced modulo the list length so that every
draw addresses a valid index of the input list. -/
def generate_sample_result {α : Type} [Inhabited α] (pick : ℕ → ℕ) (elements : List α) :
    List α :=
  (List.range elements.length).map (fun i => elements.getD (pick i % elements.length) default)

/-- From bootstrap.py, generate_sample: the body builds the list result
but contains no return statement, so the Python function falls off its
end and returns None, modelled by Option.none. -/
def generate_sample {α : Type} [Inhabited α] (pick : ℕ → ℕ) (elements : List α) :
    Option (List α) :=
  none

/-- From bootstrap.py, average_arrays: the very first statement
total = np.column_stack(arrays) evaluates the global name np, which the
module never imports (it only imports random), so every call raises
NameError before looking at the argument; the later error line would also
read the undefined name filenames. -/
def average_arrays {α : Type} (arrays : α) : Except PyErr (List ℚ × List ℚ) :=
  Except.error PyErr.nameErrorNp

/-- From bootstrap.py, bootstrap_pre_transform: default value of the
sample_count parameter in the function signature. -/
def bootstrap_pre_transform_default_sample_count : ℕ := 100

/-- From bootstrap.py, bootstrap_pre_transform: the loop that collects
transform(reduction(generate_sample(sets))) into the results list, with
the default reduction average_arrays. -/
def bootstrap_results (transform : List ℚ × List ℚ → List ℚ) (pick : ℕ → ℕ)
    (sets : List (List ℚ)) : ℕ → Except PyErr (List (List ℚ))
  | 0 => Except.ok []
  | n + 1 => do
      let sample := generate_sample pick sets
      let argument ← average_arrays sample
      let rest ← bootstrap_results transform pick sets n
      Except.ok (transform argument :: rest)

/-- From bootstrap.py, bootstrap_pre_transform with the default reduction
average_arrays: runs the resampling loop and then averages the collected
results with a final call to average_arrays. -/
def bootstrap_pre_transform (transform : List ℚ × List ℚ → List ℚ) (pick : ℕ → ℕ)
    (sets : List (List ℚ)) (sample_count : ℕ) : Except PyErr (List ℚ × List ℚ) := do
  let results ← bootstrap_results transform pick sets sample_count
  average_arrays results

/-- From fit.py, the slicing that _cut applies to each of its sequence
arguments, with Python slice semantics: x[omit_pre:] when omit_post = 0,
otherwise x[omit_pre : -omit_post - 1], that is the elements from index
omit_pre up to, exclusively, length - omit_post - 1. -/
def cut1 {α : Type} (omit_pre omit_post : ℕ) (xs : List α) : List α :=
  if omit_post = 0 then xs.drop omit_pre
  else (xs.take (xs.length - (omit_post + 1))).drop omit_pre

/-- From fit.py, cosh_fit, with the exponential modelled as an arbitrary
function E on a commutative ring (the code applies np.exp):
y = shift - x; first = a * E(-(x * m)); second = a * E(-(y * m));
returns first + second + offset. -/
def cosh_fit {R : Type} [CommRing R] (E : R → R) (x m a shift offset : R) : R :=
  let y := shift - x
  let first := a * E (-(x * m))
  let second := a * E (-(y * m))
  first + second + offset

/-- Dot product of two rational vectors, the scalar building block of the
numpy matrix products appearing in corrfit.py. -/
def dot (u v : List ℚ) : ℚ := (List.zipWith (fun a b => a * b) u v).sum

/-- Column j of a matrix stored as a list of rows (entries read with
getD, default 0). -/
def col (m : List (List ℚ)) (j : ℕ) : List ℚ := m.map (fun r => r.getD j 0)

/-- Matrix transposition for a rectangular list of rows; the row length
is read off the first row, as numpy reads the shape. -/
def matTranspose (m : List (List ℚ)) : List (List ℚ) :=
  (List.range (m.headD []).length).map (fun j => col m j)

/-- Matrix product of two rectangular matrices stored as lists of rows. -/
def matMul (a b : List (List ℚ)) : List (List ℚ) :=
  a.map (fun r => (List.range (b.headD []).length).map (fun j => dot r (col b j)))

/-- Scalar times matrix. -/
def matSmul (c : ℚ) (m : List (List ℚ)) : List (List ℚ) :=
  m.map (List.map (fun v => c * v))

/-- Entry (i, j) of a matrix stored as a list of rows, default 0. -/
def entry (m : List (List ℚ)) (i j : ℕ) : ℚ := (m.getD i []).getD j 0

/-- From corrfit.py, correlation_matrix: N = len(sets); average is the
columnwise mean (numpy mean with axis 0); vec = x - average subtracts the
average from every row; the result is the Python expression
1/(N*(N-1)) * vec.T * vec, which associates as (scalar * transpose) times
vec, paired with the average vector. -/
def correlation_matrix (sets : List (List ℚ)) : List (List ℚ) × List ℚ :=
  let N : ℚ := sets.length
  let average := (List.range (sets.headD []).length).map
    (fun j => (col sets j).sum / (sets.length : ℚ))
  let vec := sets.map (fun r => List.zipWith (fun a b => a - b) r average)
  (matMul (matSmul (1 / (N * (N - 1))) (matTranspose vec)) vec, average)

/-- Determinant by cofactor expansion along the first row, with a fuel
argument for structural recursion; the fuel equals the row count at every
call site, which suffices for square matrices. -/
def detAux : ℕ → List (List ℚ) → ℚ
  | 0, _ => 1
  | _ + 1, [] => 1
  | fuel + 1, row :: rest =>
      ((List.range row.length).map
        (fun j => (-1) ^ j * row.getD j 0 *
          detAux fuel (rest.map (fun r => r.eraseIdx j)))).sum

/-- Determinant of a square matrix stored as a list of rows. -/
def det (m : List (List ℚ)) : ℚ := detAux m.length m

/-- Minor of a matrix: delete row i and column j. -/
def minorM (m : List (List ℚ)) (i j : ℕ) : List (List ℚ) :=
  (m.eraseIdx i).map (fun r => r.eraseIdx j)

/-- Matrix of cofactors, used for the adjugate form of the inverse. -/
def cofactorMatrix (m : List (List ℚ)) : List (List ℚ) :=
  (List.range m.length).map (fun i =>
    (List.range m.length).map (fun j => (-1) ^ (i + j) * det (minorM m i j)))

/-- Model of the numpy matrix method getI on a square matrix:
numpy.linalg.inv raises LinAlgError exactly on a singular input, singular
meaning determinant zero in exact arithmetic; on a regular input it
returns the inverse, here in adjugate form. -/
def npInv (m : List (List ℚ)) : Option (List (List ℚ)) :=
  if det m = 0 then none
  else some (matSmul (1 / det m) (matTranspose (cofactorMatrix m)))

/-- From corrfit.py, correlated_chi_square: vec is the 1 x n row matrix
average - fit_estimate (numpy asmatrix of a one dimensional array); the
Python expression vec * inv_correlation_matrix * vec.T associates to the
left; the function returns entry (0, 0) of the resulting 1 x 1 matrix. -/
def correlated_chi_square (average fit_estimate : List ℚ)
    (inv_correlation_matrix : List (List ℚ)) : ℚ :=
  let vec := [List.zipWith (fun a b => a - b) average fit_estimate]
  let chi_sq := matMul (matMul vec inv_correlation_matrix) (matTranspose vec)
  entry chi_sq 0 0

/-- From corrfit.py, curve_fit_correlated: builds the correlation matrix
and its inverse (the except branch around cm.getI() prints the offending
matrix and re-raises LinAlgError, modelled by the error value carrying
the matrix), builds the chi square objective over the average vector, and
runs the external derivative free optimizer (scipy op.minimize with
method Powell), modelled by the minimize parameter; returns the optimizer
point res.x together with its chi square (the res.success flag is only
printed, never acted on). -/
def curve_fit_correlated (minimize : (List ℚ → ℚ) → List ℚ → List ℚ)
    (function : List ℚ → List ℚ → List ℚ) (xdata : List ℚ)
    (ydata : List (List ℚ)) (p0 : List ℚ) : Except NpError (List ℚ × ℚ) :=
  let cmav := correlation_matrix ydata
  match npInv cmav.1 with
  | none => Except.error (NpError.linAlgError cmav.1)
  | some inv_cm =>
      let chi_sq_minimizer := fun parameters =>
        correlated_chi_square cmav.2 (function xdata parameters) inv_cm
      let popt := minimize chi_sq_minimizer p0
      Except.ok (popt, chi_sq_minimizer popt)

/-- Modelled from the spec: corrfit.py calls _cut from the module
correlators/fit.py, which is absent from src (only the distinct top level
fit.py is present).  Per the specification of windowed_slice(x, y,
[yerr], omit_pre, omit_post) the window is applied to the x sequence and
to the y data with yerr optional (corrfit.py passes None for it), and the
slice itself is the one of the identical _cut in the top level fit.py,
namely cut1 applied to each sequence argument. -/
def correlators_fit_cut (omit_pre omit_post : ℕ) (x : List ℚ)
    (y : List (List ℚ)) : List ℚ × List (List ℚ) :=
  (cut1 omit_pre omit_post x, cut1 omit_pre omit_post y)

/-- From corrfit.py, fit: cuts x and the transposed ensemble y.T,
transposes the cut ensemble back, runs curve_fit_correlated on the
windowed data and attaches the p value
1 - chi2.cdf(chi_sq, len(used_x) - 1 - len(popt)) computed with the
external scipy chi squared cdf, modelled by the chi2cdf parameter taking
the chi square and the integer degrees of freedom. -/
def corrfit_fit (minimize : (List ℚ → ℚ) → List ℚ → List ℚ)
    (chi2cdf : ℚ → ℤ → ℚ) (func : List ℚ → List ℚ → List ℚ) (x : List ℚ)
    (y : List (List ℚ)) (omit_pre omit_post : ℕ) (p0 : List ℚ) :
    Except NpError (List ℚ × ℚ × ℚ) :=
  let used := correlators_fit_cut omit_pre omit_post x (matTranspose y)
  let used_y := matTranspose used.2
  match curve_fit_correlated minimize func used.1 used_y p0 with
  | Except.error e => Except.error e
  | Except.ok pc =>
      Except.ok (pc.1, pc.2,
        1 - chi2cdf pc.2 ((used.1.length : ℤ) - 1 - (pc.1.length : ℤ)))

/-- Identity stand in for the external optimizer: returns the initial
point unchanged.  Used to instantiate theorems at concrete inputs. -/
def idMin : (List ℚ → ℚ) → List ℚ → List ℚ := fun _ p0 => p0

/-- Constant model function: ignores the parameterwise shape and returns
the first parameter at every x.  Used to instantiate theorems at concrete
inputs. -/
def constModel : List ℚ → List ℚ → List ℚ :=
  fun xs ps => xs.map (fun _ => ps.headD 0)

/-- Constant stand in for the external chi squared cdf.  Used to
instantiate theorems at concrete inputs. -/
def zeroCdf : ℚ → ℤ → ℚ := fun _ _ => 0

/-- The quadratic form of the specification for correlated_chi_square,
written directly as the double sum over
(a_i - f_i) * M_(i,j) * (a_j - f_j). -/
def quadraticForm (a f : List ℚ) (M : List (List ℚ)) : ℚ :=
  ((List.range a.length).map (fun i =>
    ((List.range a.length).map (fun j =>
      (a.getD i 0 - f.getD i 0) * entry M i j * (a.getD j 0 - f.getD j 0))).sum)).sum

theorem dot_cons (a : ℚ) (u : List ℚ) (b : ℚ) (v : List ℚ) :
    dot (a :: u) (b :: v) = a * b + dot u v := by
  simp [dot]

theorem dot_map_left (c : ℚ) (u v : List ℚ) :
    dot (u.map (fun t => c * t)) v = c * dot u v := by
  induction u generalizing v with
  | nil => simp [dot]
  | cons a u ih =>
    cases v with
    | nil => simp [dot]
    | cons b v =>
      simp only [List.map_cons, dot_cons, ih]
      ring

theorem dot_map_map {α : Type} (l : List α) (f g : α → ℚ) :
    dot (l.map f) (l.map g) = (l.map (fun r => f r * g r)).sum := by
  induction l with
  | nil => rfl
  | cons a l ih => simp [dot_cons, ih]

theorem dot_eq_range_sum (u : List ℚ) : ∀ v : List ℚ, u.length = v.length →
    dot u v = ((List.range u.length).map (fun i => u.getD i 0 * v.getD i 0)).sum := by
  induction u with
  | nil => intro v _; simp [dot]
  | cons a u ih =>
    intro v hv
    cases v with
    | nil => simp at hv
    | cons b v =>
      have hlen : u.length = v.length := by simpa using hv
      simp only [dot_cons, List.length_cons, List.range_succ_eq_map, List.map_cons,
        List.map_map, List.sum_cons, List.getD_cons_zero]
      rw [ih v hlen]
      congr 1

theorem range_map_getD {α : Type} (r : List α) (d : α) :
    (List.range r.length).map (fun j => r.getD j d) = r := by
  apply List.ext_getElem
  · simp
  · intro i h1 h2
    simp only [List.getElem_map, List.getElem_range]
    exact List.getD_eq_getElem r d h2

theorem cut1_map {α β : Type} (f : α → β) (omit_pre omit_post : ℕ) (l : List α) :
    cut1 omit_pre omit_post (l.map f) = (cut1 omit_pre omit_post l).map f := by
  by_cases h : omit_post = 0 <;>
    simp [cut1, h, List.map_take, List.map_drop]

theorem cut1_length {α : Type} (omit_pre omit_post : ℕ) (l : List α) :
    (cut1 omit_pre omit_post l).length =
      l.length - (if omit_post = 0 then 0 else omit_post + 1) - omit_pre := by
  by_cases h : omit_post = 0
  · simp [cut1, h]
  · simp [cut1, h]

theorem sum_map_add {α : Type} (l : List α) (f g : α → ℚ) :
    (l.map (fun x => f x + g x)).sum = (l.map f).sum + (l.map g).sum := by
  induction l with
  | nil => simp
  | cons a l ih =>
    simp only [List.map_cons, List.sum_cons, ih]
    ring

theorem sum_map_mul_right {α : Type} (l : List α) (f : α → ℚ) (c : ℚ) :
    (l.map f).sum * c = (l.map (fun x => f x * c)).sum := by
  induction l with
  | nil => simp
  | cons a l ih =>
    simp only [List.map_cons, List.sum_cons, add_mul, ih]

theorem range_sum_swap (n m : ℕ) (g : ℕ → ℕ → ℚ) :
    ((List.range n).map (fun i => ((List.range m).map (fun j => g i j)).sum)).sum =
      ((List.range m).map (fun j => ((List.range n).map (fun i => g i j)).sum)).sum := by
  induction n with
  | zero => simp
  | succ n ih =>
    rw [List.range_succ, List.map_append, List.sum_append, ih]
    simp only [List.map_cons, List.map_nil, List.sum_cons, List.sum_nil, add_zero]
    rw [← sum_map_add]
    have hfun : (fun j => ((List.range n).map (fun i => g i j)).sum + g n j) =
        (fun j => ((List.range n ++ [n]).map (fun i => g i j)).sum) := by
      funext j
      rw [List.map_append, List.sum_append]
      simp
    rw [hfun]

theorem getD_map_of_lt {α β : Type} (f : α → β) (l : List α) (i : ℕ) (d : β)
    (h : i < l.length) : (l.map f).getD i d = f l[i] := by
  rw [List.getD_eq_getElem _ _ (by simpa using h), List.getElem_map]

theorem entry_matMul (a b : List (List ℚ)) (i j : ℕ) (hi : i < a.length)
    (hj : j < (b.headD []).length) :
    entry (matMul a b) i j = dot (a.getD i []) (col b j) := by
  unfold entry matMul
  rw [getD_map_of_lt _ a i [] hi]
  rw [getD_map_of_lt _ (List.range (b.headD []).length) j 0 (by simpa using hj)]
  simp only [List.getElem_range]
  rw [List.getD_eq_getElem a [] hi]

theorem matMul_row_length (a b : List (List ℚ)) (row : List ℚ) (h : row ∈ matMul a b) :
    row.length = (b.headD []).length := by
  simp only [matMul, List.mem_map] at h
  obtain ⟨r, _, rfl⟩ := h
  simp

theorem getD_matSmul (c : ℚ) (M : List (List ℚ)) (i : ℕ) (hi : i < M.length) :
    (matSmul c M).getD i [] = (M.getD i []).map (fun v => c * v) := by
  unfold matSmul
  rw [getD_map_of_lt _ M i [] hi, List.getD_eq_getElem M [] hi]

theorem getD_matTranspose (m : List (List ℚ)) (j : ℕ) (hj : j < (m.headD []).length) :
    (matTranspose m).getD j [] = col m j := by
  unfold matTranspose
  rw [getD_map_of_lt _ (List.range (m.headD []).length) j [] (by simpa using hj)]
  simp only [List.getElem_range]

theorem entry_out_row (m : List (List ℚ)) (i j : ℕ) (hi : m.length ≤ i) :
    entry m i j = 0 := by
  unfold entry
  rw [List.getD_eq_default _ _ hi]
  rfl

theorem entry_out_col (m : List (List ℚ)) (T : ℕ)
    (hrows : ∀ row ∈ m, row.length = T) (i j : ℕ) (hj : T ≤ j) :
    entry m i j = 0 := by
  unfold entry
  rcases lt_or_ge i m.length with hi | hi
  · rw [List.getD_eq_getElem _ _ hi]
    exact List.getD_eq_default _ _ (by rw [hrows _ (List.getElem_mem hi)]; exact hj)
  · rw [List.getD_eq_default _ _ hi]
    rfl

/-- C1: generate_sample does not return the sample it builds.  For every
input the Python function returns None, although the list that the loop
accumulates does have the length of the input and draws every entry from
the input, which is the documented intent. -/
theorem generate_sample_drops_result {α : Type} [Inhabited α] (pick : ℕ → ℕ)
    (elements : List α) :
    generate_sample pick elements = none ∧
    (generate_sample_result pick elements).length = elements.length ∧
    ∀ y ∈ generate_sample_result pick elements, y ∈ elements := by
  refine ⟨rfl, by simp [generate_sample_result], ?_⟩
  intro y hy
  simp only [generate_sample_result, List.mem_map, List.mem_range] at hy
  obtain ⟨i, hi, rfl⟩ := hy
  have hlen : 0 < elements.length := Nat.pos_of_ne_zero (by omega)
  have hidx : pick i % elements.length < elements.length := Nat.mod_lt _ hlen
  rw [List.getD_eq_getElem elements default hidx]
  exact List.getElem_mem hidx

/-- Witness for C1 at the concrete input [1, 2, 3]. -/
theorem generate_sample_drops_result_witness :
    generate_sample (fun _ => 0) ([1, 2, 3] : List ℚ) = none ∧
    (generate_sample_result (fun _ => 0) ([1, 2, 3] : List ℚ)).length = 3 ∧
    (generate_sample_result (fun _ => 0) ([1, 2, 3] : List ℚ)).getD 0 0 ∈
      ([1, 2, 3] : List ℚ) := by
  obtain ⟨h1, h2, h3⟩ := generate_sample_drops_result (fun _ => 0) ([1, 2, 3] : List ℚ)
  exact ⟨h1, h2, h3 _ (by decide)⟩

/-- C2: average_arrays never returns the elementwise mean and standard
error: bootstrap.py does not import numpy, so the call raises NameError
on the name np for every input, in particular on N identical vectors. -/
theorem average_arrays_raises_name_error (N : ℕ) (V : List ℚ) :
    average_arrays (List.replicate N V) = Except.error PyErr.nameErrorNp := rfl

/-- C9: bootstrap_pre_transform performs no empty input check: on the
empty dataset, with the default sample count, the first loop iteration
raises NameError from the default reduction average_arrays instead of an
InvalidInput error (no such error exists anywhere in the module); the
sample count is an explicit parameter whose declared default is 100. -/
theorem bootstrap_pre_transform_empty_name_error
    (transform : List ℚ × List ℚ → List ℚ) (pick : ℕ → ℕ) :
    bootstrap_pre_transform transform pick []
        bootstrap_pre_transform_default_sample_count =
      Except.error PyErr.nameErrorNp ∧
    bootstrap_pre_transform_default_sample_count = 100 :=
  ⟨rfl, rfl⟩

/-- C3 counterexample: on the 10 element series 0..9 with omit_pre = 2
and omit_post = 1 the cut keeps indices 2..7 (6 elements) and not indices
2..8 (7 elements) as claimed, because the omit_post branch drops
omit_post + 1 trailing elements. -/
theorem cut_omit_post_counterexample :
    cut1 2 1 (List.range 10) = [2, 3, 4, 5, 6, 7] ∧
    cut1 2 1 (List.range 10) ≠ [2, 3, 4, 5, 6, 7, 8] := by
  decide

/-- C3 amended: the cut excludes the first omit_pre elements and, when
omit_post is nonzero, the last omit_post + 1 elements (no trailing
element when omit_post = 0); every kept position i holds the element of
the input at index omit_pre + i. -/
theorem cut_omit_post_amended {α : Type} (xs : List α) (d : α)
    (omit_pre omit_post : ℕ) :
    (cut1 omit_pre omit_post xs).length =
      xs.length - (if omit_post = 0 then 0 else omit_post + 1) - omit_pre ∧
    ∀ i, i < (cut1 omit_pre omit_post xs).length →
      (cut1 omit_pre omit_post xs).getD i d = xs.getD (omit_pre + i) d := by
  by_cases h : omit_post = 0
  · subst h
    have hcut : cut1 omit_pre 0 xs = xs.drop omit_pre := by simp [cut1]
    refine ⟨by simp [hcut], ?_⟩
    intro i hi
    rw [hcut] at hi ⊢
    have hi2 : omit_pre + i < xs.length := by
      simp only [List.length_drop] at hi
      omega
    rw [List.getD_eq_getElem _ _ hi, List.getElem_drop,
      List.getD_eq_getElem _ _ hi2]
  · have hcut : cut1 omit_pre omit_post xs =
        (xs.take (xs.length - (omit_post + 1))).drop omit_pre := by
      simp [cut1, h]
    refine ⟨by rw [hcut]; simp only [List.length_drop, List.length_take, if_neg h]; omega, ?_⟩
    intro i hi
    rw [hcut] at hi ⊢
    have hlen2 : omit_pre + i < (xs.take (xs.length - (omit_post + 1))).length := by
      simp only [List.length_drop] at hi
      omega
    have hlen3 : omit_pre + i < xs.length := by
      simp only [List.length_take] at hlen2
      omega
    rw [List.getD_eq_getElem _ _ hi, List.getElem_drop,
      List.getElem_take, List.getD_eq_getElem _ _ hlen3]

/-- Witness for C3 amended at the concrete input 0..9 with omit_pre = 2,
omit_post = 1. -/
theorem cut_omit_post_amended_witness :
    (cut1 2 1 (List.range 10)).length = 10 - 2 - 2 ∧
    (cut1 2 1 (List.range 10)).getD 0 0 = (List.range 10).getD 2 0 := by
  obtain ⟨h1, h2⟩ := cut_omit_post_amended (List.range 10) 0 2 1
  exact ⟨h1.trans (by decide), h2 0 (by decide)⟩

/-- C10: reflection symmetry of the cosh model with the real exponential:
replacing x by shift - x leaves the value unchanged, and in particular
the value at x = shift equals the value at x = 0. -/
theorem cosh_fit_reflection_symmetry (x m a shift offset : ℝ) :
    cosh_fit Real.exp (shift - x) m a shift offset =
      cosh_fit Real.exp x m a shift offset ∧
    cosh_fit Real.exp shift m a shift offset =
      cosh_fit Real.exp 0 m a shift offset := by
  constructor
  · show a * Real.exp (-((shift - x) * m)) +
        a * Real.exp (-((shift - (shift - x)) * m)) + offset =
      a * Real.exp (-(x * m)) + a * Real.exp (-((shift - x) * m)) + offset
    have h : shift - (shift - x) = x := by ring
    rw [h]
    ring
  · show a * Real.exp (-(shift * m)) + a * Real.exp (-((shift - shift) * m)) + offset =
      a * Real.exp (-(0 * m)) + a * Real.exp (-((shift - 0) * m)) + offset
    rw [sub_self, sub_zero]
    ring

/-- C4: on an ensemble of N series of length T (N at least 2, T at least
1) correlation_matrix returns a T x T matrix together with the vector of
per time slice averages; each matrix entry equals 1/(N(N-1)) times the
sum over the series of the product of the deviations from the average at
the two time slices, and the matrix is symmetric. -/
theorem correlation_matrix_entries_symm (sets : List (List ℚ)) (N T : ℕ)
    (hN : sets.length = N) (hrect : ∀ r ∈ sets, r.length = T)
    (h2 : 2 ≤ N) (h1 : 1 ≤ T) :
    ((correlation_matrix sets).1.length = T ∧
      ∀ row ∈ (correlation_matrix sets).1, row.length = T) ∧
    ((correlation_matrix sets).2.length = T ∧
      ∀ j, j < T → (correlation_matrix sets).2.getD j 0 =
        (sets.map (fun r => r.getD j 0)).sum / (N : ℚ)) ∧
    (∀ i j, i < T → j < T → entry (correlation_matrix sets).1 i j =
      1 / ((N : ℚ) * ((N : ℚ) - 1)) *
        (sets.map (fun r =>
          (r.getD i 0 - (correlation_matrix sets).2.getD i 0) *
          (r.getD j 0 - (correlation_matrix sets).2.getD j 0))).sum) ∧
    (∀ i j, entry (correlation_matrix sets).1 i j =
      entry (correlation_matrix sets).1 j i) := by
  have hhead : (sets.headD []).length = T := by
    cases sets with
    | nil => simp at hN; omega
    | cons s r => exact hrect s (by simp)
  set A : List ℚ := (List.range T).map (fun j => (col sets j).sum / (N : ℚ)) with hA
  set V : List (List ℚ) := sets.map (fun r => List.zipWith (fun a b => a - b) r A) with hV
  have hAlen : A.length = T := by rw [hA]; simp
  have hmaster : correlation_matrix sets =
      (matMul (matSmul (1 / ((N : ℚ) * ((N : ℚ) - 1))) (matTranspose V)) V, A) := by
    simp only [correlation_matrix]
    rw [hhead, hN, ← hA, ← hV]
  have h1a : (correlation_matrix sets).1 =
      matMul (matSmul (1 / ((N : ℚ) * ((N : ℚ) - 1))) (matTranspose V)) V := by
    rw [hmaster]
  have h2a : (correlation_matrix sets).2 = A := by rw [hmaster]
  have hVhead : (V.headD []).length = T := by
    rcases sets with _ | ⟨s, rest⟩
    · simp at hN; omega
    · rw [hV]
      simp only [List.map_cons, List.headD_cons, List.length_zipWith]
      rw [hrect s (by simp), hAlen]
      exact min_self T
  have hClen : (correlation_matrix sets).1.length = T := by
    rw [h1a]
    simp only [matMul, List.length_map, matSmul, matTranspose, List.length_range]
    exact hVhead
  have hCrows : ∀ row ∈ (correlation_matrix sets).1, row.length = T := by
    rw [h1a]
    intro row hrow
    rw [matMul_row_length _ _ row hrow, hVhead]
  have hentry : ∀ i j, i < T → j < T → entry (correlation_matrix sets).1 i j =
      1 / ((N : ℚ) * ((N : ℚ) - 1)) * dot (col V i) (col V j) := by
    intro i j hi hj
    rw [h1a]
    rw [entry_matMul _ _ i j
      (by
        simp only [matSmul, List.length_map, matTranspose, List.length_range]
        rw [hVhead]
        exact hi)
      (by rw [hVhead]; exact hj)]
    rw [getD_matSmul _ _ i
      (by
        simp only [matTranspose, List.length_map, List.length_range]
        rw [hVhead]
        exact hi)]
    rw [getD_matTranspose _ i (by rw [hVhead]; exact hi)]
    rw [dot_map_left]
  have hcolV : ∀ i, i < T → col V i = sets.map (fun r => r.getD i 0 - A.getD i 0) := by
    intro i hi
    rw [hV]
    simp only [col, List.map_map]
    apply List.map_congr_left
    intro r hr
    simp only [Function.comp]
    have hrT : r.length = T := hrect r hr
    have hzlen : (List.zipWith (fun a b => a - b) r A).length = T := by
      rw [List.length_zipWith, hrT, hAlen]
      exact min_self T
    rw [List.getD_eq_getElem _ _ (by rw [hzlen]; exact hi), List.getElem_zipWith,
      List.getD_eq_getElem r 0 (by rw [hrT]; exact hi),
      List.getD_eq_getElem A 0 (by rw [hAlen]; exact hi)]
  have hform : ∀ i j, i < T → j < T → entry (correlation_matrix sets).1 i j =
      1 / ((N : ℚ) * ((N : ℚ) - 1)) *
        (sets.map (fun r =>
          (r.getD i 0 - (correlation_matrix sets).2.getD i 0) *
          (r.getD j 0 - (correlation_matrix sets).2.getD j 0))).sum := by
    intro i j hi hj
    rw [hentry i j hi hj, hcolV i hi, hcolV j hj, dot_map_map, h2a]
  have hsymm : ∀ i j, entry (correlation_matrix sets).1 i j =
      entry (correlation_matrix sets).1 j i := by
    intro i j
    rcases lt_or_ge i T with hi | hi
    · rcases lt_or_ge j T with hj | hj
      · rw [hform i j hi hj, hform j i hj hi]
        have hfuneq : (fun r : List ℚ =>
            (r.getD i 0 - (correlation_matrix sets).2.getD i 0) *
            (r.getD j 0 - (correlation_matrix sets).2.getD j 0)) =
            (fun r : List ℚ =>
            (r.getD j 0 - (correlation_matrix sets).2.getD j 0) *
            (r.getD i 0 - (correlation_matrix sets).2.getD i 0)) := by
          funext r
          ring
        rw [hfuneq]
      · rw [entry_out_col _ T hCrows i j hj, entry_out_row _ j i (by rw [hClen]; exact hj)]
    · rcases lt_or_ge j T with hj | hj
      · rw [entry_out_row _ i j (by rw [hClen]; exact hi),
          entry_out_col _ T hCrows j i hi]
      · rw [entry_out_row _ i j (by rw [hClen]; exact hi),
          entry_out_row _ j i (by rw [hClen]; exact hj)]
  refine ⟨⟨hClen, hCrows⟩, ⟨by rw [h2a]; exact hAlen, ?_⟩, hform, hsymm⟩
  intro j hj
  rw [h2a, hA, getD_map_of_lt _ _ j 0 (by simpa using hj), List.getElem_range]
  rfl

/-- Witness for C4 at the concrete ensemble [[1, 2], [3, 5]]. -/
theorem correlation_matrix_entries_symm_witness :
    entry (correlation_matrix [[1, 2], [3, 5]]).1 0 1 =
      entry (correlation_matrix [[1, 2], [3, 5]]).1 1 0 ∧
    (correlation_matrix [[1, 2], [3, 5]]).1.length = 2 := by
  obtain ⟨⟨hlen, _⟩, _, _, hsymm⟩ :=
    correlation_matrix_entries_symm [[1, 2], [3, 5]] 2 2 rfl
      (by intro r hr; fin_cases hr <;> rfl) (by norm_num) (by norm_num)
  exact ⟨hsymm 0 1, hlen⟩

theorem correlation_matrix_def (sets : List (List ℚ)) :
    correlation_matrix sets =
      (matMul (matSmul (1 / ((sets.length : ℚ) * ((sets.length : ℚ) - 1)))
        (matTranspose (sets.map (fun r => List.zipWith (fun a b => a - b) r
          ((List.range (sets.headD []).length).map
            (fun j => (col sets j).sum / (sets.length : ℚ)))))))
        (sets.map (fun r => List.zipWith (fun a b => a - b) r
          ((List.range (sets.headD []).length).map
            (fun j => (col sets j).sum / (sets.length : ℚ))))),
       (List.range (sets.headD []).length).map
         (fun j => (col sets j).sum / (sets.length : ℚ))) := rfl

theorem getD_replicate_zero (T j : ℕ) : (List.replicate T (0 : ℚ)).getD j 0 = 0 := by
  rcases lt_or_ge j T with h | h
  · rw [List.getD_eq_getElem _ _ (by simpa using h), List.getElem_replicate]
  · exact List.getD_eq_default _ _ (by simpa using h)

theorem dot_zero_left (N : ℕ) (w : List ℚ) : dot (List.replicate N 0) w = 0 := by
  induction N generalizing w with
  | zero => simp [dot]
  | succ n ih =>
    cases w with
    | nil => simp [dot]
    | cons b w => simp [List.replicate_succ, dot_cons, ih]

theorem zipWith_sub_self (v : List ℚ) :
    List.zipWith (fun a b => a - b) v v = List.replicate v.length 0 := by
  induction v with
  | nil => rfl
  | cons a v ih => simp [List.replicate_succ, ih]

/-- A noiseless ensemble of N identical series has the zero correlation
matrix, and its average vector is the common series. -/
theorem correlation_matrix_noiseless (N : ℕ) (v : List ℚ) (h2 : 2 ≤ N) :
    (correlation_matrix (List.replicate N v)).1 =
      List.replicate v.length (List.replicate v.length 0) ∧
    (correlation_matrix (List.replicate N v)).2 = v := by
  have hN0 : (List.replicate N v).length = N := by simp
  have hNne : (N : ℚ) ≠ 0 := Nat.cast_ne_zero.mpr (by omega)
  have hhead : (List.replicate N v).headD [] = v := by
    cases N with
    | zero => omega
    | succ n => simp [List.replicate_succ]
  have havgfun : (fun j => (col (List.replicate N v) j).sum /
      ((List.replicate N v).length : ℚ)) = (fun j => v.getD j 0) := by
    funext j
    rw [show col (List.replicate N v) j = List.replicate N (v.getD j 0) by
      simp [col, List.map_replicate]]
    rw [List.sum_replicate, hN0, nsmul_eq_mul]
    exact mul_div_cancel_left₀ _ hNne
  have havg : (correlation_matrix (List.replicate N v)).2 = v := by
    rw [correlation_matrix_def]
    rw [hhead, havgfun, range_map_getD]
  have hvec : (List.replicate N v).map (fun r => List.zipWith (fun a b => a - b) r
      ((List.range ((List.replicate N v).headD []).length).map
        (fun j => (col (List.replicate N v) j).sum /
          ((List.replicate N v).length : ℚ)))) =
      List.replicate N (List.replicate v.length 0) := by
    rw [hhead, havgfun, range_map_getD, List.map_replicate, zipWith_sub_self]
  refine ⟨?_, havg⟩
  rw [correlation_matrix_def]
  rw [hvec, hN0]
  have hheadM : (List.replicate N (List.replicate v.length (0 : ℚ))).headD [] =
      List.replicate v.length 0 := by
    cases N with
    | zero => omega
    | succ n => simp [List.replicate_succ]
  have hcolM : ∀ j, col (List.replicate N (List.replicate v.length (0 : ℚ))) j =
      List.replicate N 0 := by
    intro j
    simp [col, List.map_replicate, getD_replicate_zero]
  have hrows : ∀ row ∈ matMul
      (matSmul (1 / ((N : ℚ) * ((N : ℚ) - 1)))
        (matTranspose (List.replicate N (List.replicate v.length 0))))
      (List.replicate N (List.replicate v.length 0)),
      row = List.replicate v.length 0 := by
    intro row hrow
    simp only [matMul, List.mem_map] at hrow
    obtain ⟨r, hr, rfl⟩ := hrow
    simp only [matSmul, matTranspose, List.map_map, List.mem_map] at hr
    obtain ⟨j0, _, rfl⟩ := hr
    have hr0 : (List.map (fun v => 1 / ((N : ℚ) * ((N : ℚ) - 1)) * v) ∘ col
        (List.replicate N (List.replicate v.length 0))) j0 = List.replicate N 0 := by
      simp [Function.comp, hcolM, List.map_replicate]
    rw [hr0]
    have hzero : ∀ x ∈ (List.range ((List.replicate N
        (List.replicate v.length (0 : ℚ))).headD []).length).map
        (fun j => dot (List.replicate N 0)
          (col (List.replicate N (List.replicate v.length 0)) j)), x = 0 := by
      intro x hx
      simp only [List.mem_map] at hx
      obtain ⟨j, _, rfl⟩ := hx
      exact dot_zero_left N _
    have hlenrow : ((List.range ((List.replicate N
        (List.replicate v.length (0 : ℚ))).headD []).length).map
        (fun j => dot (List.replicate N 0)
          (col (List.replicate N (List.replicate v.length 0)) j))).length =
        v.length := by
      rw [hheadM]
      simp
    rw [List.eq_replicate_of_mem hzero, hlenrow]
  have hlenM : (matMul
      (matSmul (1 / ((N : ℚ) * ((N : ℚ) - 1)))
        (matTranspose (List.replicate N (List.replicate v.length 0))))
      (List.replicate N (List.replicate v.length 0))).length = v.length := by
    simp only [matMul, List.length_map, matSmul, matTranspose, List.length_range]
    rw [hheadM]
    simp
  rw [List.eq_replicate_of_mem hrows, hlenM]

/-- The determinant of a nonempty matrix whose first row is all zeros
vanishes; in particular the zero matrix is singular. -/
theorem det_replicate_zero (T : ℕ) (h1 : 1 ≤ T) :
    det (List.replicate T (List.replicate T (0 : ℚ))) = 0 := by
  cases T with
  | zero => omega
  | succ n =>
    rw [det, List.replicate_succ]
    simp only [List.length_cons, List.length_replicate, detAux]
    apply List.sum_eq_zero
    intro x hx
    simp only [List.mem_map] at hx
    obtain ⟨j, _, rfl⟩ := hx
    rw [getD_replicate_zero]
    ring

/-- C7: whenever the correlation matrix of the input ensemble is singular
(zero determinant, the exact arithmetic meaning of not invertible),
curve_fit_correlated stops with the LinAlgError that carries that very
matrix as its diagnostic, instead of continuing with a corrupted
inverse. -/
theorem curve_fit_correlated_singular_error
    (minimize : (List ℚ → ℚ) → List ℚ → List ℚ)
    (func : List ℚ → List ℚ → List ℚ) (xdata : List ℚ) (p0 : List ℚ)
    (ydata : List (List ℚ)) (hsing : det (correlation_matrix ydata).1 = 0) :
    curve_fit_correlated minimize func xdata ydata p0 =
      Except.error (NpError.linAlgError (correlation_matrix ydata).1) := by
  simp [curve_fit_correlated, npInv, hsing]

/-- Witness for C7 at the noiseless ensemble of two identical series
[1, 2]: the correlation matrix is the zero matrix, and the fit fails with
the LinAlgError exhibiting it. -/
theorem curve_fit_correlated_singular_error_witness :
    curve_fit_correlated idMin constModel [0, 1] [[1, 2], [1, 2]] [] =
      Except.error (NpError.linAlgError [[0, 0], [0, 0]]) := by
  have hcm : (correlation_matrix [[1, 2], [1, 2]]).1 = [[0, 0], [0, 0]] := by
    have h := (correlation_matrix_noiseless 2 [1, 2] (by norm_num)).1
    simpa using h
  have hsing : det (correlation_matrix [[1, 2], [1, 2]]).1 = 0 := by
    rw [hcm]
    have h := det_replicate_zero 2 (by norm_num)
    simpa using h
  have h := curve_fit_correlated_singular_error idMin constModel [0, 1] []
    [[1, 2], [1, 2]] hsing
  rw [hcm] at h
  exact h

theorem headD_eq_getD {α : Type} (l : List α) (d : α) : l.headD d = l.getD 0 d := by
  cases l <;> rfl

/-- C8: correlated_chi_square computes the quadratic form of the
difference vector: it equals the double sum over i and j of
(a_i - f_i) * M_(i,j) * (a_j - f_j), for vectors of equal length n and an
n x n matrix. -/
theorem correlated_chi_square_quadratic_form (a f : List ℚ) (M : List (List ℚ))
    (n : ℕ) (ha : a.length = n) (hf : f.length = n) (hM : M.length = n)
    (hMr : ∀ row ∈ M, row.length = n) (hn : 1 ≤ n) :
    correlated_chi_square a f M = quadraticForm a f M := by
  have hMhead : (M.headD []).length = n := by
    cases M with
    | nil => simp at hM; omega
    | cons r rest => exact hMr r (by simp)
  set v : List ℚ := List.zipWith (fun p q => p - q) a f with hv
  have hvlen : v.length = n := by
    rw [hv, List.length_zipWith, ha, hf, min_self]
  have hvget : ∀ i, i < n → v.getD i 0 = a.getD i 0 - f.getD i 0 := by
    intro i hi
    rw [hv, List.getD_eq_getElem _ _ (by rw [List.length_zipWith, ha, hf, min_self]; exact hi),
      List.getElem_zipWith, List.getD_eq_getElem a 0 (by rw [ha]; exact hi),
      List.getD_eq_getElem f 0 (by rw [hf]; exact hi)]
  have hform : correlated_chi_square a f M =
      entry (matMul (matMul [v] M) (matTranspose [v])) 0 0 := by
    rw [hv]
    rfl
  have hA : matMul [v] M = [(List.range n).map (fun j => dot v (col M j))] := by
    show [(List.range (M.headD []).length).map (fun j => dot v (col M j))] = _
    rw [hMhead]
  have hW : matTranspose [v] = (List.range n).map (fun i => [v.getD i 0]) := by
    have h1 : ([v].headD []).length = n := by
      rw [List.headD_cons]
      exact hvlen
    show (List.range ([v].headD []).length).map (fun j => col [v] j) =
      (List.range n).map (fun i => [v.getD i 0])
    rw [h1]
    rfl
  have hcolW : col (matTranspose [v]) 0 = (List.range n).map (fun i => v.getD i 0) := by
    rw [hW]
    simp only [col, List.map_map]
    rfl
  have hWhead : 0 < ((matTranspose [v]).headD []).length := by
    rw [hW, headD_eq_getD, getD_map_of_lt _ _ 0 [] (by simp; omega)]
    simp
  have houter : entry (matMul (matMul [v] M) (matTranspose [v])) 0 0 =
      dot ((List.range n).map (fun j => dot v (col M j)))
        ((List.range n).map (fun i => v.getD i 0)) := by
    rw [entry_matMul _ _ 0 0 (by rw [hA]; simp) hWhead, hA, List.getD_cons_zero, hcolW]
  rw [hform, houter, dot_map_map]
  have hinner : ∀ j ∈ List.range n, dot v (col M j) * v.getD j 0 =
      ((List.range n).map (fun i => (a.getD i 0 - f.getD i 0) * entry M i j)).sum *
        (a.getD j 0 - f.getD j 0) := by
    intro j hj
    rw [List.mem_range] at hj
    rw [dot_eq_range_sum v (col M j) (by simp [col, hvlen, hM]), hvlen, hvget j hj]
    congr 1
    apply congrArg List.sum
    apply List.map_congr_left
    intro i hi
    rw [List.mem_range] at hi
    rw [hvget i hi]
    congr 1
    simp only [col]
    rw [getD_map_of_lt _ M i 0 (by rw [hM]; exact hi)]
    unfold entry
    rw [List.getD_eq_getElem M [] (by rw [hM]; exact hi)]
  rw [List.map_congr_left hinner]
  have hdist : ∀ j ∈ List.range n,
      ((List.range n).map (fun i => (a.getD i 0 - f.getD i 0) * entry M i j)).sum *
        (a.getD j 0 - f.getD j 0) =
      ((List.range n).map (fun i =>
        (a.getD i 0 - f.getD i 0) * entry M i j * (a.getD j 0 - f.getD j 0))).sum := by
    intro j _
    rw [sum_map_mul_right]
  rw [List.map_congr_left hdist, ← range_sum_swap]
  unfold quadraticForm
  rw [ha]

/-- Witness for C8 at a concrete pair of vectors and a 2 x 2 matrix. -/
theorem correlated_chi_square_quadratic_form_witness :
    correlated_chi_square [1, 2] [0, 0] [[1, 0], [0, 2]] =
      quadraticForm [1, 2] [0, 0] [[1, 0], [0, 2]] ∧
    correlated_chi_square [1, 2] [0, 0] [[1, 0], [0, 2]] = 9 := by
  have h := correlated_chi_square_quadratic_form [1, 2] [0, 0] [[1, 0], [0, 2]] 2
    rfl rfl rfl (by intro r hr; fin_cases hr <;> rfl) (by norm_num)
  refine ⟨h, h.trans ?_⟩
  norm_num [quadraticForm, entry, List.range_succ]

/-- C6: the fit engine contains no degrees of freedom guard.  With one
windowed point and one parameter the degrees of freedom are
1 - 1 - 1 = -1, yet for every model of the external chi squared cdf the
fit returns a successful result whose p value is 1 - cdf(chi_sq, -1)
(NaN in scipy for nonpositive degrees of freedom), instead of failing
with an InvalidDegreesOfFreedom error; indeed no such error exists
anywhere in the code. -/
theorem corrfit_fit_no_dof_guard (chi2cdf : ℚ → ℤ → ℚ) :
    corrfit_fit idMin chi2cdf constModel [0] [[0], [2]] 0 0 [5] =
      Except.ok ([5], 16, 1 - chi2cdf 16 (-1)) := by
  norm_num [corrfit_fit, correlators_fit_cut, cut1, curve_fit_correlated,
    correlation_matrix, npInv, det, detAux, cofactorMatrix, minorM, matMul,
    matTranspose, matSmul, col, dot, correlated_chi_square, entry, idMin,
    constModel, List.range_succ]

/-- Windowing the transposed ensemble and transposing back windows every
series identically: the transpose dance of corrfit.py equals a plain map
of the cut over the series, for a rectangular nonempty ensemble and a
nonempty window. -/
theorem transpose_cut_transpose (y : List (List ℚ)) (T omit_pre omit_post : ℕ)
    (hrect : ∀ r ∈ y, r.length = T) (hy : 1 ≤ y.length)
    (hwin : cut1 omit_pre omit_post (List.range T) ≠ []) :
    matTranspose (cut1 omit_pre omit_post (matTranspose y)) =
      y.map (cut1 omit_pre omit_post) := by
  have hyhead : (y.headD []).length = T := by
    cases y with
    | nil => simp at hy
    | cons r rest => exact hrect r (by simp)
  have ht1 : matTranspose y = (List.range T).map (fun j => col y j) := by
    show (List.range (y.headD []).length).map (fun j => col y j) = _
    rw [hyhead]
  rw [ht1, cut1_map]
  obtain ⟨j0, J, hJ⟩ : ∃ j0 J, cut1 omit_pre omit_post (List.range T) = j0 :: J := by
    cases hcut : cut1 omit_pre omit_post (List.range T) with
    | nil => exact absurd hcut hwin
    | cons z zs => exact ⟨z, zs, rfl⟩
  rw [hJ]
  have hhead2 : ((((j0 :: J).map (fun j => col y j))).headD []).length = y.length := by
    simp [col]
  show (List.range ((((j0 :: J).map (fun j => col y j))).headD []).length).map
      (fun k => col ((j0 :: J).map (fun j => col y j)) k) =
    y.map (cut1 omit_pre omit_post)
  rw [hhead2]
  apply List.ext_getElem
  · simp
  · intro k h1 h2
    simp only [List.getElem_map, List.getElem_range]
    have hk : k < y.length := by simpa using h2
    simp only [col, List.map_map]
    have hfun : ((fun r : List ℚ => r.getD k 0) ∘ fun j => y.map (fun r => r.getD j 0)) =
        (fun j => (y[k]).getD j 0) := by
      funext j
      simp only [Function.comp]
      rw [getD_map_of_lt _ y k 0 hk]
    rw [hfun, ← hJ, ← cut1_map]
    have hkT : (y[k]).length = T := hrect _ (List.getElem_mem hk)
    rw [← hkT, range_map_getD]

/-- C5: the correlated fit windows every series of the ensemble with the
same cut that it applies to the x axis, hands the windowed data to
curve_fit_correlated, and attaches the p value computed by the chi
squared survival function 1 - cdf at len(used_x) - 1 - len(popt) degrees
of freedom. -/
theorem corrfit_fit_windows_then_pvalue (minimize : (List ℚ → ℚ) → List ℚ → List ℚ)
    (chi2cdf : ℚ → ℤ → ℚ) (func : List ℚ → List ℚ → List ℚ) (x : List ℚ)
    (y : List (List ℚ)) (omit_pre omit_post : ℕ) (p0 : List ℚ) (T : ℕ)
    (hx : x.length = T) (hrect : ∀ r ∈ y, r.length = T) (hy : 1 ≤ y.length)
    (hwin : 1 ≤ (cut1 omit_pre omit_post x).length) :
    corrfit_fit minimize chi2cdf func x y omit_pre omit_post p0 =
      match curve_fit_correlated minimize func (cut1 omit_pre omit_post x)
          (y.map (cut1 omit_pre omit_post)) p0 with
      | Except.error e => Except.error e
      | Except.ok pc =>
          Except.ok (pc.1, pc.2,
            1 - chi2cdf pc.2 (((cut1 omit_pre omit_post x).length : ℤ) - 1 -
              (pc.1.length : ℤ))) := by
  have hwin2 : cut1 omit_pre omit_post (List.range T) ≠ [] := by
    have hlen1 : (cut1 omit_pre omit_post (List.range T)).length =
        (cut1 omit_pre omit_post x).length := by
      rw [cut1_length, cut1_length, List.length_range, hx]
    intro hnil
    rw [hnil] at hlen1
    simp at hlen1
    omega
  have hkey : matTranspose (cut1 omit_pre omit_post (matTranspose y)) =
      y.map (cut1 omit_pre omit_post) :=
    transpose_cut_transpose y T omit_pre omit_post hrect hy hwin2
  rcases hcase : curve_fit_correlated minimize func (cut1 omit_pre omit_post x)
      (y.map (cut1 omit_pre omit_post)) p0 with e | pc
  all_goals
    simp only [corrfit_fit, correlators_fit_cut, hkey, hcase]

/-- Witness for C5 at a concrete two series ensemble with omit_pre = 1:
the windowed fit keeps one point and one parameter and returns the chi
square 1/25 with a p value computed at -1 degrees of freedom. -/
theorem corrfit_fit_windows_then_pvalue_witness :
    corrfit_fit idMin zeroCdf constModel [0, 1] [[1, 2], [4, 7]] 1 0 [5] =
      Except.ok ([5], 1 / 25, 1) := by
  have h := corrfit_fit_windows_then_pvalue idMin zeroCdf constModel [0, 1]
    [[1, 2], [4, 7]] 1 0 [5] 2 rfl (by intro r hr; fin_cases hr <;> rfl)
    (by norm_num) (by norm_num [cut1])
  rw [h]
  norm_num [cut1, curve_fit_correlated, correlation_matrix, npInv, det, detAux,
    cofactorMatrix, minorM, matMul, matTranspose, matSmul, col, dot,
    correlated_chi_square, entry, idMin, constModel, zeroCdf, List.range_succ]
